import Mathlib

/-!
Verification of the WebSocket broadcast hub of `golf-league`
(`backend/internal/websocket/hub.go`), a shallow embedding.

A `Client` models `websocket.Client`: its Go identity is the pointer, here an
`id`; `roundID` is its topic; `cap` is the capacity of its buffered `Send`
channel (the channel is allocated by the transport adapter; the hub treats it
as an opaque bounded queue).  The hub state carries:
  * `clients`  — the Go map `map[string]map[*Client]bool`, as an association
    list from topic key to the member list (the inner map's key set);
  * `send`     — the contents of each client's `Send` channel buffer;
  * `closed`   — whether `close(client.Send)` has been executed for a client;
  * `pendingUnregister` — the clients the broadcast branch has attempted to
    send on the hub's own `unregister` channel (`h.unregister <- client`);
  * `wedged`   — whether the coordinating loop is blocked in such a send.

The `unregister` channel is unbuffered (`make(chan *Client)`) and its only
receive is the `case client := <-h.unregister` arm of the very loop that
executes the send, so the send can never complete: when the fan-out meets a
full buffer the loop blocks there forever.  The model makes this explicit:
the fan-out stops at the first full-buffer member, records that member in
`pendingUnregister`, sets `wedged`, and a wedged hub processes no further
operation.

Each arm of the `select` in `Hub.Run` becomes one step function, and a run of
the coordinating loop is a left fold of steps over a list of operations.
-/

/-- One connected WebSocket client (`websocket.Client`): `id` stands for the
Go pointer identity, `roundID` is the round it watches, `cap` is the buffer
capacity of its `Send` channel. -/
structure Client where
  id : Nat
  roundID : String
  cap : Nat
deriving DecidableEq

/-- A broadcast message (`websocket.Message`): a round id and opaque bytes. -/
structure Message where
  roundID : String
  data : List Nat
deriving DecidableEq

/-- The hub state: the topic map, every client's `Send` buffer contents and
closed flag, the clients the loop has attempted to send on its own
unregister channel, and whether the loop is wedged in such a send. -/
structure HubState where
  clients : List (String × List Client)
  send : Client → List (List Nat)
  closed : Client → Bool
  pendingUnregister : List Client
  wedged : Bool

/-- Go map lookup `h.clients[t]`: `none` models an absent key. -/
def lookupTopic (m : List (String × List Client)) (t : String) :
    Option (List Client) :=
  match m with
  | [] => none
  | (k, v) :: rest => if k = t then some v else lookupTopic rest t

/-- Go map store `h.clients[t] = v`: replace the binding of `t`, or add it. -/
def setTopic (m : List (String × List Client)) (t : String) (v : List Client) :
    List (String × List Client) :=
  match m with
  | [] => [(t, v)]
  | (k, w) :: rest =>
      if k = t then (t, v) :: rest else (k, w) :: setTopic rest t v

/-- Go map delete `delete(h.clients, t)`. -/
def removeTopic (m : List (String × List Client)) (t : String) :
    List (String × List Client) :=
  match m with
  | [] => []
  | (k, w) :: rest => if k = t then rest else (k, w) :: removeTopic rest t

/-- The member set of a topic as the loop's fan-out sees it:
`h.clients[msg.RoundID]` with the nil map read as empty. -/
def membersOf (s : HubState) (t : String) : List Client :=
  (lookupTopic s.clients t).getD []

/-- `NewHub()`: empty topic map, no buffered data, nothing closed. -/
def newHub : HubState :=
  { clients := []
    send := fun _ => []
    closed := fun _ => false
    pendingUnregister := []
    wedged := false }

/-- The `case client := <-h.register` arm of `Hub.Run`: create the inner map
if this is the round's first client, then insert the client. -/
def registerStep (s : HubState) (c : Client) : HubState :=
  let curr := (lookupTopic s.clients c.roundID).getD []
  let curr2 := if c ∈ curr then curr else curr ++ [c]
  { s with clients := setTopic s.clients c.roundID curr2 }

/-- The `case client := <-h.unregister` arm of `Hub.Run`: if the client is
present under its round, delete it, close its `Send` channel, and delete the
round's entry when its set becomes empty; otherwise do nothing. -/
def unregisterStep (s : HubState) (c : Client) : HubState :=
  match lookupTopic s.clients c.roundID with
  | none => s
  | some l =>
      if c ∈ l then
        let l2 := l.erase c
        { s with
          clients :=
            if l2 = [] then removeTopic s.clients c.roundID
            else setTopic s.clients c.roundID l2
          closed := fun c2 => if c2 = c then true else s.closed c2 }
      else s

/-- A successful buffered-channel send `client.Send <- msg.Data`: append the
payload to the client's buffer. -/
def enqueueTo (s : HubState) (d : List Nat) (c : Client) : HubState :=
  { s with send := fun c2 => if c2 = c then s.send c ++ [d] else s.send c2 }

/-- The fan-out loop of the broadcast arm:
`select { case client.Send <- msg.Data: ... default: h.unregister <- client }`.
The buffered-channel send succeeds exactly when the buffer has room.  When a
member's buffer is full the default branch executes `h.unregister <- client`
— a send on the unbuffered unregister channel whose only receiver is this
same loop — so the send never completes: the loop wedges there, members
later in the iteration are never reached, and the client the loop is stuck
sending is recorded in `pendingUnregister`. -/
def fanout (d : List Nat) : HubState → List Client → HubState
  | s, [] => s
  | s, c :: rest =>
      if (s.send c).length < c.cap then fanout d (enqueueTo s d c) rest
      else { s with pendingUnregister := s.pendingUnregister ++ [c]
                    wedged := true }

/-- The `case msg := <-h.broadcast` arm of `Hub.Run`: snapshot the round's
member set and run the fan-out loop over it. -/
def broadcastStep (s : HubState) (m : Message) : HubState :=
  fanout m.data s (membersOf s m.roundID)

/-- One message processed by the coordinating loop. -/
inductive HubOp where
  | register (c : Client)
  | unregister (c : Client)
  | broadcast (m : Message)
deriving DecidableEq

/-- Dispatch of one loop iteration of `Hub.Run`.  A wedged loop — blocked
forever in `h.unregister <- client` — never returns to the `select`, so it
processes nothing further. -/
def hubStep (s : HubState) (op : HubOp) : HubState :=
  if s.wedged then s
  else
    match op with
    | .register c => registerStep s c
    | .unregister c => unregisterStep s c
    | .broadcast m => broadcastStep s m

/-- A run of the coordinating loop over a sequence of submitted operations. -/
def hubRun (s : HubState) (ops : List HubOp) : HubState := ops.foldl hubStep s

/-- The payloads published to topic `t` in an operation sequence, in
submission order. -/
def publishedTo (t : String) : List HubOp → List (List Nat)
  | [] => []
  | .broadcast m :: rest =>
      if m.roundID = t then m.data :: publishedTo t rest else publishedTo t rest
  | .register _ :: rest => publishedTo t rest
  | .unregister _ :: rest => publishedTo t rest

/-- The structural invariant of the topic map, maintained by the loop: every
stored set is non-empty, duplicate-free, holds only clients of its own round,
and topic keys are unique. -/
def HubInv (s : HubState) : Prop :=
  (∀ p ∈ s.clients, p.2 ≠ [] ∧ p.2.Nodup ∧ ∀ c ∈ p.2, c.roundID = p.1)
    ∧ (s.clients.map Prod.fst).Nodup

instance (s : HubState) : Decidable (HubInv s) := by
  unfold HubInv; infer_instance

/-! ### Association-list lemmas about the topic map -/

theorem lookup_setTopic_self (m : List (String × List Client)) (t : String)
    (v : List Client) : lookupTopic (setTopic m t v) t = some v := by
  induction m with
  | nil => simp [setTopic, lookupTopic]
  | cons p rest ih =>
      obtain ⟨k, w⟩ := p
      by_cases hk : k = t
      · simp [setTopic, hk, lookupTopic]
      · simp [setTopic, hk, lookupTopic, ih]

theorem lookup_setTopic_ne (m : List (String × List Client)) {t t2 : String}
    (v : List Client) (h : t2 ≠ t) :
    lookupTopic (setTopic m t v) t2 = lookupTopic m t2 := by
  induction m with
  | nil => simp [setTopic, lookupTopic, Ne.symm h]
  | cons p rest ih =>
      obtain ⟨k, w⟩ := p
      by_cases hk : k = t
      · subst hk
        simp [setTopic, lookupTopic, h, Ne.symm h]
      · simp [setTopic, hk, lookupTopic, ih]

theorem lookup_removeTopic_ne (m : List (String × List Client)) {t t2 : String}
    (h : t2 ≠ t) : lookupTopic (removeTopic m t) t2 = lookupTopic m t2 := by
  induction m with
  | nil => simp [removeTopic]
  | cons p rest ih =>
      obtain ⟨k, w⟩ := p
      by_cases hk : k = t
      · subst hk
        simp [removeTopic, lookupTopic, Ne.symm h]
      · simp [removeTopic, hk, lookupTopic, ih]

theorem lookupTopic_eq_none_iff (m : List (String × List Client)) (t : String) :
    lookupTopic m t = none ↔ t ∉ m.map Prod.fst := by
  induction m with
  | nil => simp [lookupTopic]
  | cons p rest ih =>
      obtain ⟨k, w⟩ := p
      by_cases hk : k = t
      · subst hk; simp [lookupTopic]
      · simp [lookupTopic, hk, ih, Ne.symm hk]

theorem lookup_removeTopic_self (m : List (String × List Client)) (t : String)
    (hU : (m.map Prod.fst).Nodup) :
    lookupTopic (removeTopic m t) t = none := by
  induction m with
  | nil => simp [removeTopic, lookupTopic]
  | cons p rest ih =>
      obtain ⟨k, w⟩ := p
      simp only [List.map_cons, List.nodup_cons] at hU
      by_cases hk : k = t
      · subst hk
        simp only [removeTopic, if_pos rfl]
        exact (lookupTopic_eq_none_iff rest k).mpr hU.1
      · simp [removeTopic, hk, lookupTopic, ih hU.2]

theorem mem_of_lookupTopic {m : List (String × List Client)} {t : String}
    {l : List Client} (h : lookupTopic m t = some l) : (t, l) ∈ m := by
  induction m with
  | nil => simp [lookupTopic] at h
  | cons p rest ih =>
      obtain ⟨k, w⟩ := p
      rw [lookupTopic] at h
      by_cases hk : k = t
      · rw [if_pos hk] at h
        have hw := Option.some.inj h
        subst hw; subst hk
        exact List.mem_cons_self _ _
      · rw [if_neg hk] at h
        exact List.mem_cons_of_mem _ (ih h)

theorem mem_setTopic {m : List (String × List Client)} {t : String}
    {v : List Client} {p : String × List Client} (hp : p ∈ setTopic m t v) :
    p ∈ m ∨ p = (t, v) := by
  induction m with
  | nil => simp [setTopic] at hp; simp [hp]
  | cons q rest ih =>
      obtain ⟨k, w⟩ := q
      by_cases hk : k = t
      · simp only [setTopic, if_pos hk] at hp
        rcases List.mem_cons.mp hp with h | h
        · exact Or.inr h
        · exact Or.inl (List.mem_cons_of_mem _ h)
      · simp only [setTopic, if_neg hk] at hp
        rcases List.mem_cons.mp hp with h | h
        · exact Or.inl (by simp [h])
        · rcases ih h with h2 | h2
          · exact Or.inl (List.mem_cons_of_mem _ h2)
          · exact Or.inr h2

theorem removeTopic_sublist (m : List (String × List Client)) (t : String) :
    (removeTopic m t).Sublist m := by
  induction m with
  | nil => simp [removeTopic]
  | cons q rest ih =>
      obtain ⟨k, w⟩ := q
      by_cases hk : k = t
      · simp only [removeTopic, if_pos hk]
        exact (List.Sublist.refl rest).cons _
      · simp only [removeTopic, if_neg hk]
        exact List.Sublist.cons₂ (k, w) ih

theorem keys_setTopic_of_mem {m : List (String × List Client)} {t : String}
    (v : List Client) (h : t ∈ m.map Prod.fst) :
    (setTopic m t v).map Prod.fst = m.map Prod.fst := by
  induction m with
  | nil => simp at h
  | cons q rest ih =>
      obtain ⟨k, w⟩ := q
      by_cases hk : k = t
      · simp [setTopic, hk]
      · simp only [List.map_cons, List.mem_cons] at h
        rcases h with h | h
        · exact absurd h.symm hk
        · simp [setTopic, hk, ih h]

theorem keys_setTopic_of_not_mem {m : List (String × List Client)} {t : String}
    (v : List Client) (h : t ∉ m.map Prod.fst) :
    (setTopic m t v).map Prod.fst = m.map Prod.fst ++ [t] := by
  induction m with
  | nil => simp [setTopic]
  | cons q rest ih =>
      obtain ⟨k, w⟩ := q
      simp only [List.map_cons, List.mem_cons] at h
      push_neg at h
      simp [setTopic, Ne.symm h.1, ih h.2]

/-! ### Componentwise behaviour of the three step functions -/

theorem registerStep_send (s : HubState) (c : Client) :
    (registerStep s c).send = s.send := rfl

theorem registerStep_closed (s : HubState) (c : Client) :
    (registerStep s c).closed = s.closed := rfl

theorem registerStep_pending (s : HubState) (c : Client) :
    (registerStep s c).pendingUnregister = s.pendingUnregister := rfl

theorem unregisterStep_send (s : HubState) (c : Client) :
    (unregisterStep s c).send = s.send := by
  unfold unregisterStep
  rcases lookupTopic s.clients c.roundID with _ | l
  · rfl
  · by_cases hc : c ∈ l <;> simp [hc]

theorem unregisterStep_pending (s : HubState) (c : Client) :
    (unregisterStep s c).pendingUnregister = s.pendingUnregister := by
  unfold unregisterStep
  rcases lookupTopic s.clients c.roundID with _ | l
  · rfl
  · by_cases hc : c ∈ l <;> simp [hc]

theorem unregisterStep_closed_ne (s : HubState) {c o : Client} (h : o ≠ c) :
    (unregisterStep s c).closed o = s.closed o := by
  unfold unregisterStep
  rcases lookupTopic s.clients c.roundID with _ | l
  · rfl
  · by_cases hc : c ∈ l <;> simp [hc, h]

/-! ### Componentwise behaviour of the fan-out loop -/

theorem enqueueTo_send_ne (s : HubState) (d : List Nat) {c o : Client}
    (h : o ≠ c) : (enqueueTo s d c).send o = s.send o := by
  simp [enqueueTo, h]

theorem enqueueTo_send_self (s : HubState) (d : List Nat) (c : Client) :
    (enqueueTo s d c).send c = s.send c ++ [d] := by
  simp [enqueueTo]

theorem fanout_clients (d : List Nat) (l : List Client) (s : HubState) :
    (fanout d s l).clients = s.clients := by
  induction l generalizing s with
  | nil => rfl
  | cons x xs ih =>
      unfold fanout
      by_cases hx : (s.send x).length < x.cap
      · rw [if_pos hx, ih]
        rfl
      · rw [if_neg hx]

theorem fanout_closed (d : List Nat) (l : List Client) (s : HubState) :
    (fanout d s l).closed = s.closed := by
  induction l generalizing s with
  | nil => rfl
  | cons x xs ih =>
      unfold fanout
      by_cases hx : (s.send x).length < x.cap
      · rw [if_pos hx, ih]
        rfl
      · rw [if_neg hx]

theorem fanout_send_not_mem (d : List Nat) {l : List Client} (s : HubState)
    {o : Client} (h : o ∉ l) : (fanout d s l).send o = s.send o := by
  induction l generalizing s with
  | nil => rfl
  | cons x xs ih =>
      simp only [List.mem_cons] at h
      push_neg at h
      unfold fanout
      by_cases hx : (s.send x).length < x.cap
      · rw [if_pos hx, ih (enqueueTo s d x) h.2, enqueueTo_send_ne s d h.1]
      · rw [if_neg hx]

theorem fanout_pending_not_mem (d : List Nat) {l : List Client} (s : HubState)
    {o : Client} (h : o ∉ l) :
    (o ∈ (fanout d s l).pendingUnregister ↔ o ∈ s.pendingUnregister) := by
  induction l generalizing s with
  | nil => exact Iff.rfl
  | cons x xs ih =>
      simp only [List.mem_cons] at h
      push_neg at h
      unfold fanout
      by_cases hx : (s.send x).length < x.cap
      · rw [if_pos hx, ih (enqueueTo s d x) h.2]
        exact Iff.rfl
      · rw [if_neg hx]
        simp [h.1]

theorem fanout_send_full (d : List Nat) {l : List Client} (s : HubState)
    {o : Client} (ho : o ∈ l) (hfull : ¬ (s.send o).length < o.cap) :
    (fanout d s l).send o = s.send o := by
  induction l generalizing s with
  | nil => rfl
  | cons x xs ih =>
      unfold fanout
      by_cases hx : (s.send x).length < x.cap
      · have hne : o ≠ x := fun he => hfull (he ▸ hx)
        have ho2 : o ∈ xs := by
          rcases List.mem_cons.mp ho with he | h2
          · exact absurd he hne
          · exact h2
        rw [if_pos hx, ih (enqueueTo s d x) ho2 ?_, enqueueTo_send_ne s d hne]
        rwa [enqueueTo_send_ne s d hne]
      · rw [if_neg hx]

theorem fanout_wedged_of_full (d : List Nat) {l : List Client} (s : HubState)
    (h : ∃ c ∈ l, ¬ (s.send c).length < c.cap) :
    (fanout d s l).wedged = true := by
  induction l generalizing s with
  | nil => simp at h
  | cons x xs ih =>
      obtain ⟨c, hc, hfull⟩ := h
      unfold fanout
      by_cases hx : (s.send x).length < x.cap
      · have hne : c ≠ x := fun he => hfull (he ▸ hx)
        have hc2 : c ∈ xs := by
          rcases List.mem_cons.mp hc with he | h2
          · exact absurd he hne
          · exact h2
        rw [if_pos hx]
        refine ih (enqueueTo s d x) ⟨c, hc2, ?_⟩
        rwa [enqueueTo_send_ne s d hne]
      · rw [if_neg hx]

theorem fanout_all_room (d : List Nat) {l : List Client} (s : HubState)
    (hnd : l.Nodup) (hroom : ∀ c ∈ l, (s.send c).length < c.cap) :
    (∀ c ∈ l, (fanout d s l).send c = s.send c ++ [d])
      ∧ (fanout d s l).wedged = s.wedged
      ∧ (fanout d s l).pendingUnregister = s.pendingUnregister := by
  induction l generalizing s with
  | nil => exact ⟨fun c hc => absurd hc (List.not_mem_nil c), rfl, rfl⟩
  | cons x xs ih =>
      simp only [List.nodup_cons] at hnd
      have hx : (s.send x).length < x.cap :=
        hroom x (List.mem_cons_self _ _)
      have hroom2 : ∀ c ∈ xs, ((enqueueTo s d x).send c).length < c.cap := by
        intro c hc
        have hne : c ≠ x := fun he => hnd.1 (he ▸ hc)
        rw [enqueueTo_send_ne s d hne]
        exact hroom c (List.mem_cons_of_mem _ hc)
      have h := ih (enqueueTo s d x) hnd.2 hroom2
      have hfx : fanout d s (x :: xs) = fanout d (enqueueTo s d x) xs := by
        simp only [fanout]
        rw [if_pos hx]
      refine ⟨?_, ?_, ?_⟩
      · intro c hc
        rcases List.mem_cons.mp hc with rfl | hc2
        · rw [hfx, fanout_send_not_mem d (enqueueTo s d c) hnd.1,
            enqueueTo_send_self]
        · have hne : c ≠ x := fun he => hnd.1 (he ▸ hc2)
          rw [hfx, h.1 c hc2, enqueueTo_send_ne s d hne]
      · rw [hfx, h.2.1]
        rfl
      · rw [hfx, h.2.2]
        rfl

theorem broadcastStep_clients (s : HubState) (m : Message) :
    (broadcastStep s m).clients = s.clients :=
  fanout_clients m.data (membersOf s m.roundID) s

theorem membersOf_broadcastStep (s : HubState) (m : Message) (t : String) :
    membersOf (broadcastStep s m) t = membersOf s t := by
  unfold membersOf
  rw [broadcastStep_clients]

theorem registerStep_lookup_ne (s : HubState) {c : Client} {t : String}
    (ht : t ≠ c.roundID) :
    lookupTopic (registerStep s c).clients t = lookupTopic s.clients t := by
  simp only [registerStep]
  exact lookup_setTopic_ne s.clients _ ht

theorem unregisterStep_lookup_ne (s : HubState) {c : Client} {t : String}
    (ht : t ≠ c.roundID) :
    lookupTopic (unregisterStep s c).clients t = lookupTopic s.clients t := by
  unfold unregisterStep
  rcases lookupTopic s.clients c.roundID with _ | l
  · rfl
  · by_cases hc : c ∈ l
    · simp only [if_pos hc]
      by_cases he : l.erase c = [] <;>
        simp [he, lookup_removeTopic_ne s.clients ht,
          lookup_setTopic_ne s.clients _ ht]
    · simp [hc]

/-! ### Preservation of the structural invariant by every loop step -/

theorem hubInv_newHub : HubInv newHub := by
  constructor
  · intro p hp; simp [newHub] at hp
  · simp [newHub]

theorem hubInv_mem_roundID {s : HubState} {o : Client} {t : String}
    (hinv : HubInv s) (h : o ∈ membersOf s t) : o.roundID = t := by
  unfold membersOf at h
  cases hl : lookupTopic s.clients t with
  | none => rw [hl] at h; simp at h
  | some l =>
      rw [hl] at h
      simp only [Option.getD_some] at h
      exact (hinv.1 _ (mem_of_lookupTopic hl)).2.2 o h

theorem hubInv_nodup_membersOf {s : HubState} (hinv : HubInv s) (t : String) :
    (membersOf s t).Nodup := by
  unfold membersOf
  cases hl : lookupTopic s.clients t with
  | none => simp
  | some l =>
      simp only [Option.getD_some]
      exact (hinv.1 _ (mem_of_lookupTopic hl)).2.1

theorem lookup_mem_keys {m : List (String × List Client)} {t : String}
    {l : List Client} (h : lookupTopic m t = some l) : t ∈ m.map Prod.fst :=
  List.mem_map.mpr ⟨(t, l), mem_of_lookupTopic h, rfl⟩

theorem registerStep_inv {s : HubState} (c : Client) (hinv : HubInv s) :
    HubInv (registerStep s c) := by
  obtain ⟨hval, hkeys⟩ := hinv
  have hcurr_nd : ((lookupTopic s.clients c.roundID).getD []).Nodup := by
    cases hl : lookupTopic s.clients c.roundID with
    | none => simp
    | some l =>
        simp only [Option.getD_some]
        exact (hval _ (mem_of_lookupTopic hl)).2.1
  have hcurr_rid :
      ∀ x ∈ (lookupTopic s.clients c.roundID).getD [], x.roundID = c.roundID := by
    cases hl : lookupTopic s.clients c.roundID with
    | none => simp
    | some l =>
        simp only [Option.getD_some]
        exact (hval _ (mem_of_lookupTopic hl)).2.2
  constructor
  · intro p hp
    simp only [registerStep] at hp
    rcases mem_setTopic hp with h | h
    · exact hval p h
    · subst h
      refine ⟨?_, ?_, ?_⟩
      · by_cases hc : c ∈ (lookupTopic s.clients c.roundID).getD [] <;>
          simp [hc]
        intro he
        rw [he] at hc
        simp at hc
      · by_cases hc : c ∈ (lookupTopic s.clients c.roundID).getD []
        · simpa [hc] using hcurr_nd
        · simp only [if_neg hc]
          refine List.Nodup.append hcurr_nd (List.nodup_singleton c) ?_
          intro a ha ha2
          simp only [List.mem_singleton] at ha2
          exact hc (ha2 ▸ ha)
      · intro x hx
        by_cases hc : c ∈ (lookupTopic s.clients c.roundID).getD []
        · rw [if_pos hc] at hx
          exact hcurr_rid x hx
        · rw [if_neg hc] at hx
          rcases List.mem_append.mp hx with h2 | h2
          · exact hcurr_rid x h2
          · simp only [List.mem_singleton] at h2
            subst h2; rfl
  · simp only [registerStep]
    cases hl : lookupTopic s.clients c.roundID with
    | none =>
        rw [keys_setTopic_of_not_mem _ ((lookupTopic_eq_none_iff _ _).mp hl)]
        refine List.Nodup.append hkeys (List.nodup_singleton _) ?_
        intro a ha ha2
        simp only [List.mem_singleton] at ha2
        exact ((lookupTopic_eq_none_iff _ _).mp hl) (ha2 ▸ ha)
    | some l =>
        rw [keys_setTopic_of_mem _ (lookup_mem_keys hl)]
        exact hkeys

theorem unregisterStep_inv {s : HubState} (c : Client) (hinv : HubInv s) :
    HubInv (unregisterStep s c) := by
  obtain ⟨hval, hkeys⟩ := hinv
  unfold unregisterStep
  cases hl : lookupTopic s.clients c.roundID with
  | none => exact ⟨hval, hkeys⟩
  | some l =>
      by_cases hc : c ∈ l
      · simp only [if_pos hc]
        have hlprop := hval _ (mem_of_lookupTopic hl)
        by_cases he : l.erase c = []
        · simp only [he, if_pos rfl]
          constructor
          · intro p hp
            exact hval p ((removeTopic_sublist s.clients c.roundID).mem hp)
          · exact ((removeTopic_sublist s.clients c.roundID).map
              Prod.fst).nodup hkeys
        · simp only [if_neg he]
          constructor
          · intro p hp
            rcases mem_setTopic hp with h | h
            · exact hval p h
            · subst h
              refine ⟨he, hlprop.2.1.erase c, ?_⟩
              intro x hx
              exact hlprop.2.2 x (List.mem_of_mem_erase hx)
          · rw [keys_setTopic_of_mem _ (lookup_mem_keys hl)]
            exact hkeys
      · simp only [if_neg hc]
        exact ⟨hval, hkeys⟩

theorem broadcastStep_inv {s : HubState} (m : Message) (hinv : HubInv s) :
    HubInv (broadcastStep s m) := by
  unfold HubInv
  rw [broadcastStep_clients]
  exact hinv

theorem hubStep_wedged {s : HubState} (hw : s.wedged = true) (op : HubOp) :
    hubStep s op = s := by
  simp [hubStep, hw]

theorem hubStep_not_wedged_register {s : HubState} (hw : s.wedged = false)
    (c : Client) : hubStep s (.register c) = registerStep s c := by
  simp [hubStep, hw]

theorem hubStep_not_wedged_unregister {s : HubState} (hw : s.wedged = false)
    (c : Client) : hubStep s (.unregister c) = unregisterStep s c := by
  simp [hubStep, hw]

theorem hubStep_not_wedged_broadcast {s : HubState} (hw : s.wedged = false)
    (m : Message) : hubStep s (.broadcast m) = broadcastStep s m := by
  simp [hubStep, hw]

theorem hubStep_inv {s : HubState} (op : HubOp) (hinv : HubInv s) :
    HubInv (hubStep s op) := by
  cases hw : s.wedged with
  | true => rw [hubStep_wedged hw]; exact hinv
  | false =>
      cases op with
      | register c =>
          rw [hubStep_not_wedged_register hw]
          exact registerStep_inv c hinv
      | unregister c =>
          rw [hubStep_not_wedged_unregister hw]
          exact unregisterStep_inv c hinv
      | broadcast m =>
          rw [hubStep_not_wedged_broadcast hw]
          exact broadcastStep_inv m hinv

theorem hubRun_inv {s : HubState} (ops : List HubOp) (hinv : HubInv s) :
    HubInv (hubRun s ops) := by
  induction ops generalizing s with
  | nil => exact hinv
  | cons op rest ih => exact ih (hubStep_inv op hinv)

theorem hubInv_reachable (ops : List HubOp) : HubInv (hubRun newHub ops) :=
  hubRun_inv ops hubInv_newHub

/-! ### Case analysis of the unregister arm -/

theorem unregisterStep_of_none {s : HubState} {c : Client}
    (hl : lookupTopic s.clients c.roundID = none) : unregisterStep s c = s := by
  unfold unregisterStep
  rw [hl]

theorem unregisterStep_of_not_mem {s : HubState} {c : Client} {l : List Client}
    (hl : lookupTopic s.clients c.roundID = some l) (hc : c ∉ l) :
    unregisterStep s c = s := by
  unfold unregisterStep
  rw [hl]
  simp [hc]

theorem unregisterStep_clients_of_erase_nil {s : HubState} {c : Client}
    {l : List Client} (hl : lookupTopic s.clients c.roundID = some l)
    (hc : c ∈ l) (he : l.erase c = []) :
    (unregisterStep s c).clients = removeTopic s.clients c.roundID := by
  unfold unregisterStep
  rw [hl]
  simp [hc, he]

theorem unregisterStep_clients_of_erase_ne_nil {s : HubState} {c : Client}
    {l : List Client} (hl : lookupTopic s.clients c.roundID = some l)
    (hc : c ∈ l) (he : l.erase c ≠ []) :
    (unregisterStep s c).clients = setTopic s.clients c.roundID (l.erase c) := by
  unfold unregisterStep
  rw [hl]
  simp [hc, he]

theorem unregisterStep_closed_self {s : HubState} {c : Client} {l : List Client}
    (hl : lookupTopic s.clients c.roundID = some l) (hc : c ∈ l) :
    (unregisterStep s c).closed c = true := by
  unfold unregisterStep
  rw [hl]
  simp [hc]

/-! ### Membership evolution under the three steps -/

theorem mem_membersOf_registerStep (s : HubState) (c o : Client) (t : String) :
    (o ∈ membersOf (registerStep s c) t ↔
      o ∈ membersOf s t ∨ (o = c ∧ t = c.roundID)) := by
  by_cases ht : t = c.roundID
  · subst ht
    unfold membersOf
    simp only [registerStep]
    rw [lookup_setTopic_self, Option.getD_some]
    by_cases hc : c ∈ (lookupTopic s.clients c.roundID).getD []
    · rw [if_pos hc]
      constructor
      · exact fun h => Or.inl h
      · rintro (h | ⟨rfl, -⟩)
        · exact h
        · exact hc
    · rw [if_neg hc]
      constructor
      · intro h
        rcases List.mem_append.mp h with h2 | h2
        · exact Or.inl h2
        · simp only [List.mem_singleton] at h2
          exact Or.inr ⟨h2, by trivial⟩
      · rintro (h | ⟨rfl, -⟩)
        · exact List.mem_append.mpr (Or.inl h)
        · exact List.mem_append.mpr (Or.inr (by simp))
  · unfold membersOf
    rw [registerStep_lookup_ne s ht]
    constructor
    · exact fun h => Or.inl h
    · rintro (h | ⟨-, h2⟩)
      · exact h
      · exact absurd h2 ht

theorem mem_membersOf_unregisterStep_ne {s : HubState} {c o : Client}
    (hU : (s.clients.map Prod.fst).Nodup) (hne : o ≠ c) (t : String) :
    (o ∈ membersOf (unregisterStep s c) t ↔ o ∈ membersOf s t) := by
  cases hl : lookupTopic s.clients c.roundID with
  | none => rw [unregisterStep_of_none hl]
  | some l =>
      by_cases hc : c ∈ l
      · by_cases ht : t = c.roundID
        · subst ht
          unfold membersOf
          by_cases he : l.erase c = []
          · rw [unregisterStep_clients_of_erase_nil hl hc he,
              lookup_removeTopic_self s.clients c.roundID hU, hl]
            simp only [Option.getD_none, Option.getD_some, List.not_mem_nil,
              false_iff]
            intro hol
            have h2 : o ∈ l.erase c := (List.mem_erase_of_ne hne).mpr hol
            rw [he] at h2
            simp at h2
          · rw [unregisterStep_clients_of_erase_ne_nil hl hc he,
              lookup_setTopic_self, hl, Option.getD_some, Option.getD_some]
            exact List.mem_erase_of_ne hne
        · unfold membersOf
          rw [unregisterStep_lookup_ne s ht]
      · rw [unregisterStep_of_not_mem hl hc]

theorem unregisterStep_not_mem {s : HubState} {c : Client} (hinv : HubInv s)
    (t : String) : c ∉ membersOf (unregisterStep s c) t := by
  by_cases ht : t = c.roundID
  · subst ht
    cases hl : lookupTopic s.clients c.roundID with
    | none =>
        rw [unregisterStep_of_none hl]
        unfold membersOf
        rw [hl]
        simp
    | some l =>
        by_cases hc : c ∈ l
        · unfold membersOf
          by_cases he : l.erase c = []
          · rw [unregisterStep_clients_of_erase_nil hl hc he,
              lookup_removeTopic_self s.clients c.roundID hinv.2]
            simp
          · rw [unregisterStep_clients_of_erase_ne_nil hl hc he,
              lookup_setTopic_self, Option.getD_some]
            have hnd : l.Nodup := (hinv.1 _ (mem_of_lookupTopic hl)).2.1
            intro h
            exact ((hnd.mem_erase_iff).mp h).1 rfl
        · rw [unregisterStep_of_not_mem hl hc]
          unfold membersOf
          rw [hl]
          simpa using hc
  · intro h
    have h2 : c ∈ membersOf s t := by
      unfold membersOf at h ⊢
      rwa [unregisterStep_lookup_ne s ht] at h
    exact ht (hubInv_mem_roundID hinv h2).symm

theorem unregisterStep_absent {s : HubState} {o : Client}
    (h : o ∉ membersOf s o.roundID) : unregisterStep s o = s := by
  cases hl : lookupTopic s.clients o.roundID with
  | none => exact unregisterStep_of_none hl
  | some l =>
      refine unregisterStep_of_not_mem hl ?_
      intro hmem
      apply h
      unfold membersOf
      rw [hl]
      simpa using hmem

/-! ### Trace lemmas: runs of the coordinating loop -/

theorem hubRun_cons (s : HubState) (op : HubOp) (ops : List HubOp) :
    hubRun s (op :: ops) = hubRun (hubStep s op) ops := rfl

theorem publishedTo_broadcast (t : String) (m : Message) (ops : List HubOp) :
    publishedTo t (.broadcast m :: ops) =
      if m.roundID = t then m.data :: publishedTo t ops
      else publishedTo t ops := rfl

theorem silence_run (o : Client) (ops : List HubOp) :
    ∀ s : HubState, HubInv s → (∀ t, o ∉ membersOf s t) →
      (∀ op ∈ ops, op ≠ HubOp.register o) →
      (∀ t, o ∉ membersOf (hubRun s ops) t)
        ∧ (hubRun s ops).send o = s.send o
        ∧ (o ∈ (hubRun s ops).pendingUnregister ↔
            o ∈ s.pendingUnregister) := by
  induction ops with
  | nil => exact fun s _ habs _ => ⟨habs, rfl, Iff.rfl⟩
  | cons op rest ih =>
      intro s hinv habs hnor
      have hnor2 : ∀ op2 ∈ rest, op2 ≠ HubOp.register o :=
        fun op2 h2 => hnor op2 (List.mem_cons_of_mem _ h2)
      rw [hubRun_cons]
      cases hw : s.wedged with
      | true =>
          rw [hubStep_wedged hw]
          exact ih s hinv habs hnor2
      | false =>
          cases op with
          | register c =>
              rw [hubStep_not_wedged_register hw]
              have hco : HubOp.register c ≠ HubOp.register o :=
                hnor _ (List.mem_cons_self _ _)
              have hne : o ≠ c := fun h => hco (by rw [h])
              have habs2 : ∀ t, o ∉ membersOf (registerStep s c) t := by
                intro t h
                rcases (mem_membersOf_registerStep s c o t).mp h with
                  h2 | ⟨h2, -⟩
                · exact habs t h2
                · exact hne h2
              have h := ih (registerStep s c) (registerStep_inv c hinv)
                habs2 hnor2
              exact ⟨h.1, by rw [h.2.1]; rfl, by rw [h.2.2]; exact Iff.rfl⟩
          | unregister c =>
              rw [hubStep_not_wedged_unregister hw]
              by_cases hoc : c = o
              · subst hoc
                rw [unregisterStep_absent (habs c.roundID)]
                exact ih s hinv habs hnor2
              · have hne : o ≠ c := fun h => hoc h.symm
                have habs2 : ∀ t, o ∉ membersOf (unregisterStep s c) t := by
                  intro t h
                  exact habs t
                    ((mem_membersOf_unregisterStep_ne hinv.2 hne t).mp h)
                have h := ih (unregisterStep s c) (unregisterStep_inv c hinv)
                  habs2 hnor2
                refine ⟨h.1, ?_, ?_⟩
                · rw [h.2.1]
                  exact congrFun (unregisterStep_send s c) o
                · rw [h.2.2, unregisterStep_pending]
          | broadcast m =>
              rw [hubStep_not_wedged_broadcast hw]
              have habs2 : ∀ t, o ∉ membersOf (broadcastStep s m) t := by
                intro t
                rw [membersOf_broadcastStep]
                exact habs t
              have h := ih (broadcastStep s m) (broadcastStep_inv m hinv)
                habs2 hnor2
              refine ⟨h.1, ?_, ?_⟩
              · rw [h.2.1]
                unfold broadcastStep
                exact fanout_send_not_mem m.data s (habs m.roundID)
              · rw [h.2.2]
                unfold broadcastStep
                exact fanout_pending_not_mem m.data s (habs m.roundID)

theorem hubRun_append (s : HubState) (l1 l2 : List HubOp) :
    hubRun s (l1 ++ l2) = hubRun (hubRun s l1) l2 := by
  simp [hubRun, List.foldl_append]

/-! ### Concrete clients, states and operation lists used in witnesses -/

def clientA : Client := ⟨0, "round-1", 1⟩

def clientB : Client := ⟨1, "round-1", 4⟩

def clientC : Client := ⟨2, "round-2", 4⟩

def hubWithA : HubState := registerStep newHub clientA

def hubWithC : HubState := registerStep newHub clientC

def hubAfterFirstPublish : HubState := broadcastStep hubWithA ⟨"round-1", [1]⟩

def hubAfterSecondPublish : HubState :=
  broadcastStep hubAfterFirstPublish ⟨"round-1", [2]⟩

def hubAB : HubState := registerStep hubWithA clientB

def hubABFull : HubState := broadcastStep hubAB ⟨"round-1", [1]⟩

def fifoOps : List HubOp :=
  [.broadcast ⟨"round-1", [2]⟩, .broadcast ⟨"round-1", [3]⟩]

def wOps : List HubOp :=
  [.broadcast ⟨"round-1", [1]⟩, .broadcast ⟨"round-2", [9]⟩,
    .register clientC, .broadcast ⟨"round-1", [2]⟩]

/-! ### The claims -/

/-- C1: the spec claims a publish that finds an observer's outbound queue
full evicts the observer at once, with the same effect as `Unregister`
(removal from the topic's set and closing of the queue), so that a second
publish is a no-op for it.  The code does not do this.  At the failing
input — `clientA` watching `"round-1"` with capacity 1 and one buffered
payload — the broadcast arm leaves the observer in the topic's set, does not
close its queue, does not deliver, and blocks forever in
`h.unregister <- client`: a send on the unbuffered unregister channel whose
only receiver is the coordinating loop executing this very branch.  This
theorem evaluates the embedded broadcast arm at that input: after the second
publish the observer is still registered, still open, still holding only the
first payload, the loop is stuck attempting to send it on the unregister
channel, and the hub is wedged. -/
theorem C1_full_queue_observer_not_evicted :
    clientA ∈ membersOf hubAfterSecondPublish "round-1"
      ∧ hubAfterSecondPublish.closed clientA = false
      ∧ hubAfterSecondPublish.send clientA = [[1]]
      ∧ hubAfterSecondPublish.pendingUnregister = [clientA]
      ∧ hubAfterSecondPublish.wedged = true := by decide

/-- C2 counterexample: the claim says observers with free buffer space still
receive the payload in the same broadcast step, and that the removal of a
full observer is merely deferred to a later unregister step.  At the
concrete input — `clientA` (capacity 1, buffer full) iterated before
`clientB` (capacity 4, room to spare) under `"round-1"` — the fan-out
blocks forever at `clientA`, so `clientB` does not receive the payload, and
the wedged loop can never process any later unregister step. -/
theorem C2_free_member_after_full_not_delivered :
    clientB ∈ membersOf hubABFull "round-1"
      ∧ (hubABFull.send clientB).length < clientB.cap
      ∧ ¬ ((broadcastStep hubABFull ⟨"round-1", [2]⟩).send clientB
          = hubABFull.send clientB ++ [[2]])
      ∧ (broadcastStep hubABFull ⟨"round-1", [2]⟩).wedged = true := by decide

/-- C2 (amended): processing one broadcast message leaves the
topic-to-observer-set mapping unchanged and closes no observer's queue.
When every member's buffer has room, every member receives the payload in
the same step and the loop carries on.  A member whose buffer is full is not
delivered the payload and the loop blocks forever attempting to submit it on
the hub's own unregister channel, so the step wedges the hub and members
after the full one receive nothing. -/
theorem C2_broadcast_frame_effects_amended (s : HubState) (m : Message)
    (hnd : (membersOf s m.roundID).Nodup) :
    (broadcastStep s m).clients = s.clients
      ∧ (∀ c, (broadcastStep s m).closed c = s.closed c)
      ∧ ((∀ c ∈ membersOf s m.roundID, (s.send c).length < c.cap) →
          (∀ c ∈ membersOf s m.roundID,
              (broadcastStep s m).send c = s.send c ++ [m.data])
            ∧ (broadcastStep s m).wedged = s.wedged
            ∧ (broadcastStep s m).pendingUnregister = s.pendingUnregister)
      ∧ (∀ c ∈ membersOf s m.roundID, ¬ (s.send c).length < c.cap →
          (broadcastStep s m).send c = s.send c
            ∧ (broadcastStep s m).wedged = true) := by
  refine ⟨broadcastStep_clients s m, ?_, ?_, ?_⟩
  · intro c
    unfold broadcastStep
    exact congrFun (fanout_closed m.data _ s) c
  · intro hroom
    unfold broadcastStep
    exact fanout_all_room m.data s hnd hroom
  · intro c hc hfull
    constructor
    · unfold broadcastStep
      exact fanout_send_full m.data s hc hfull
    · unfold broadcastStep
      exact fanout_wedged_of_full m.data s ⟨c, hc, hfull⟩

/-- Witness for the amended C2 at a concrete state: two registered
observers, one broadcast message. -/
theorem C2_broadcast_frame_effects_amended_witness :
    (membersOf hubAB "round-1").Nodup
      ∧ ((broadcastStep hubAB ⟨"round-1", [7]⟩).clients = hubAB.clients
        ∧ (∀ c, (broadcastStep hubAB ⟨"round-1", [7]⟩).closed c
            = hubAB.closed c)
        ∧ ((∀ c ∈ membersOf hubAB "round-1",
              (hubAB.send c).length < c.cap) →
            (∀ c ∈ membersOf hubAB "round-1",
                (broadcastStep hubAB ⟨"round-1", [7]⟩).send c
                  = hubAB.send c ++ [[7]])
              ∧ (broadcastStep hubAB ⟨"round-1", [7]⟩).wedged = hubAB.wedged
              ∧ (broadcastStep hubAB ⟨"round-1", [7]⟩).pendingUnregister
                  = hubAB.pendingUnregister)
        ∧ (∀ c ∈ membersOf hubAB "round-1",
            ¬ (hubAB.send c).length < c.cap →
            (broadcastStep hubAB ⟨"round-1", [7]⟩).send c = hubAB.send c
              ∧ (broadcastStep hubAB ⟨"round-1", [7]⟩).wedged = true)) :=
  ⟨by decide,
    C2_broadcast_frame_effects_amended hubAB ⟨"round-1", [7]⟩ (by decide)⟩

/-- C3: the spec claims per-observer FIFO — an observer that remains
registered (never unregistered, never evicted) receives exactly the payloads
published to its topic, in order, with no loss.  The code violates this:
with `clientA` (capacity 1, buffer full) and `clientB` (capacity 4) both
under `"round-1"`, the publish of `[2]` blocks the loop forever in
`h.unregister <- clientA`, so `clientB` — still registered, never the target
of an unregister, never evicted, its queue never closed — receives neither
`[2]` nor the later `[3]`: its queue still holds only `[1]` while
`[[2], [3]]` were published to its topic, and the hub is wedged. -/
theorem C3_fifo_lost_payload :
    clientB ∈ membersOf (hubRun hubABFull fifoOps) "round-1"
      ∧ clientB ∉ (hubRun hubABFull fifoOps).pendingUnregister
      ∧ (hubRun hubABFull fifoOps).closed clientB = false
      ∧ publishedTo "round-1" fifoOps = [[2], [3]]
      ∧ (hubRun hubABFull fifoOps).send clientB = [[1]]
      ∧ (hubRun hubABFull fifoOps).wedged = true := by decide

/-- C4: in every state reachable from `NewHub` by register, unregister and
broadcast steps, a topic key is present in the clients map exactly when its
observer set is non-empty. -/
theorem C4_topic_present_iff_nonempty (ops : List HubOp) (t : String) :
    (lookupTopic (hubRun newHub ops).clients t ≠ none ↔
      membersOf (hubRun newHub ops) t ≠ []) := by
  have hinv := hubInv_reachable ops
  constructor
  · intro h
    cases hl : lookupTopic (hubRun newHub ops).clients t with
    | none => exact absurd hl h
    | some l =>
        have hne := (hinv.1 _ (mem_of_lookupTopic hl)).1
        unfold membersOf
        rw [hl]
        simpa using hne
  · intro h hnone
    apply h
    unfold membersOf
    rw [hnone]
    rfl

/-- C5: unregister is idempotent.  Processing an unregister for an observer
absent from its topic's set leaves the whole state unchanged (no panic, no
second close, nobody else touched); for a present observer it closes the
queue, removes the observer from every set, leaves every other observer's
queue, closed flag and membership unchanged, and deletes the topic entry
when it removed the last observer. -/
theorem C5_unregister_idempotent (s : HubState) (o : Client)
    (hinv : HubInv s) :
    (o ∉ membersOf s o.roundID → unregisterStep s o = s)
      ∧ (o ∈ membersOf s o.roundID →
          (unregisterStep s o).closed o = true
            ∧ (∀ t, o ∉ membersOf (unregisterStep s o) t)
            ∧ (∀ c, c ≠ o →
                (unregisterStep s o).send c = s.send c
                  ∧ (unregisterStep s o).closed c = s.closed c
                  ∧ ∀ t, (c ∈ membersOf (unregisterStep s o) t ↔
                      c ∈ membersOf s t))
            ∧ (membersOf s o.roundID = [o] →
                lookupTopic (unregisterStep s o).clients o.roundID
                  = none)) := by
  refine ⟨unregisterStep_absent, ?_⟩
  intro hmem
  have hlmem : ∃ l, lookupTopic s.clients o.roundID = some l ∧ o ∈ l := by
    unfold membersOf at hmem
    cases hl : lookupTopic s.clients o.roundID with
    | none => rw [hl] at hmem; simp at hmem
    | some l =>
        rw [hl] at hmem
        exact ⟨l, rfl, by simpa using hmem⟩
  obtain ⟨l, hl, hol⟩ := hlmem
  refine ⟨unregisterStep_closed_self hl hol, unregisterStep_not_mem hinv, ?_,
    ?_⟩
  · intro c hc
    exact ⟨congrFun (unregisterStep_send s o) c,
      unregisterStep_closed_ne s hc,
      fun t => mem_membersOf_unregisterStep_ne hinv.2 hc t⟩
  · intro hsingle
    have hleq : l = [o] := by
      unfold membersOf at hsingle
      rw [hl] at hsingle
      simpa using hsingle
    subst hleq
    have he : ([o] : List Client).erase o = [] := by simp
    rw [unregisterStep_clients_of_erase_nil hl hol he]
    exact lookup_removeTopic_self s.clients o.roundID hinv.2

/-- Witness for C5 at a concrete state with one registered observer: both
the present case and (through the theorem at the resulting state) the
absent case are exercised. -/
theorem C5_unregister_idempotent_witness :
    HubInv hubWithA
      ∧ ((clientA ∉ membersOf hubWithA clientA.roundID →
            unregisterStep hubWithA clientA = hubWithA)
        ∧ (clientA ∈ membersOf hubWithA clientA.roundID →
            (unregisterStep hubWithA clientA).closed clientA = true
              ∧ (∀ t, clientA ∉ membersOf (unregisterStep hubWithA clientA) t)
              ∧ (∀ c, c ≠ clientA →
                  (unregisterStep hubWithA clientA).send c = hubWithA.send c
                    ∧ (unregisterStep hubWithA clientA).closed c
                        = hubWithA.closed c
                    ∧ ∀ t, (c ∈ membersOf (unregisterStep hubWithA clientA) t
                        ↔ c ∈ membersOf hubWithA t))
              ∧ (membersOf hubWithA clientA.roundID = [clientA] →
                  lookupTopic (unregisterStep hubWithA clientA).clients
                    clientA.roundID = none))) :=
  ⟨by decide, C5_unregister_idempotent hubWithA clientA (by decide)⟩

/-- C6: post-unregister silence.  Once the loop has processed an unregister
of `o`, then along any continuation that never re-registers `o`, `o` is
absent from every topic's set, no publish ever enqueues anything on `o`'s
queue, and `o` is never again submitted on the unregister channel. -/
theorem C6_post_unregister_silence (s : HubState) (o : Client)
    (ops : List HubOp) (hinv : HubInv s)
    (hnor : ∀ op ∈ ops, op ≠ HubOp.register o) :
    (∀ t, o ∉ membersOf (hubRun (unregisterStep s o) ops) t)
      ∧ (hubRun (unregisterStep s o) ops).send o = s.send o
      ∧ (o ∈ (hubRun (unregisterStep s o) ops).pendingUnregister ↔
          o ∈ (unregisterStep s o).pendingUnregister) := by
  have h := silence_run o ops (unregisterStep s o) (unregisterStep_inv o hinv)
    (unregisterStep_not_mem hinv) hnor
  refine ⟨h.1, ?_, h.2.2⟩
  rw [h.2.1]
  exact congrFun (unregisterStep_send s o) o

/-- Witness for C6: unregister `clientA`, then publish twice to its old
topic and register another client. -/
theorem C6_post_unregister_silence_witness :
    (HubInv hubWithA ∧ (∀ op ∈ wOps, op ≠ HubOp.register clientA))
      ∧ ((∀ t, clientA ∉ membersOf (hubRun (unregisterStep hubWithA clientA)
              wOps) t)
        ∧ (hubRun (unregisterStep hubWithA clientA) wOps).send clientA
            = hubWithA.send clientA
        ∧ (clientA ∈ (hubRun (unregisterStep hubWithA clientA)
              wOps).pendingUnregister ↔
            clientA ∈ (unregisterStep hubWithA clientA).pendingUnregister)) :=
  ⟨⟨by decide, by decide⟩,
    C6_post_unregister_silence hubWithA clientA wOps (by decide) (by decide)⟩

/-- C7: publishing to a topic with no registered observers (key absent, or —
unreachable in practice — an empty set) is a silent no-op: the whole hub
state is unchanged and nothing is enqueued anywhere. -/
theorem C7_empty_topic_publish_noop (s : HubState) (t : String) (d : List Nat)
    (h : membersOf s t = []) : broadcastStep s ⟨t, d⟩ = s := by
  have h2 : membersOf s (Message.mk t d).roundID = [] := h
  unfold broadcastStep
  rw [h2]
  rfl

/-- Witness for C7: publishing to a round nobody watches leaves the empty
hub unchanged. -/
theorem C7_empty_topic_publish_noop_witness :
    membersOf newHub "round-9" = []
      ∧ broadcastStep newHub ⟨"round-9", [5]⟩ = newHub :=
  ⟨by decide, C7_empty_topic_publish_noop newHub "round-9" [5] (by decide)⟩

/-- C8: no cross-topic leakage.  A publish to topic `t1` reads exactly the
observer set stored under `t1`; any observer outside that set — in
particular one registered only under a different topic — keeps its queue,
its closed flag, and its absence from the unregister channel unchanged. -/
theorem C8_no_cross_topic_leakage (s : HubState) (t1 : String) (d : List Nat)
    (o : Client) (h : o ∉ membersOf s t1) :
    (broadcastStep s ⟨t1, d⟩).send o = s.send o
      ∧ ((o ∈ (broadcastStep s ⟨t1, d⟩).pendingUnregister) ↔
          o ∈ s.pendingUnregister)
      ∧ (broadcastStep s ⟨t1, d⟩).closed o = s.closed o := by
  unfold broadcastStep
  exact ⟨fanout_send_not_mem d s h, fanout_pending_not_mem d s h,
    congrFun (fanout_closed d _ s) o⟩

/-- Witness for C8: `clientC` is registered only under `"round-2"`; a
publish to `"round-1"` does not touch it. -/
theorem C8_no_cross_topic_leakage_witness :
    clientC ∉ membersOf hubWithC "round-1"
      ∧ ((broadcastStep hubWithC ⟨"round-1", [3]⟩).send clientC
          = hubWithC.send clientC
        ∧ ((clientC ∈ (broadcastStep hubWithC
              ⟨"round-1", [3]⟩).pendingUnregister) ↔
            clientC ∈ hubWithC.pendingUnregister)
        ∧ (broadcastStep hubWithC ⟨"round-1", [3]⟩).closed clientC
            = hubWithC.closed clientC) :=
  ⟨by decide, C8_no_cross_topic_leakage hubWithC "round-1" [3] clientC
    (by decide)⟩

/-- C9: in every reachable state an observer appears only in the set keyed
by its immutable `RoundID`, hence in at most one topic's set at a time; and
it appears there only between the processing of its register message and the
processing of its removal: membership at the end of a run implies a register
of the observer occurs in the run, and membership after a suffix that never
re-registers the observer implies it was already a member before that
suffix. -/
theorem C9_observer_in_at_most_one_topic (ops1 ops2 : List HubOp) (o : Client)
    (t1 t2 : String)
    (h1 : o ∈ membersOf (hubRun newHub (ops1 ++ ops2)) t1)
    (h2 : o ∈ membersOf (hubRun newHub (ops1 ++ ops2)) t2)
    (hnor : ∀ op ∈ ops2, op ≠ HubOp.register o) :
    t1 = o.roundID ∧ t1 = t2 ∧ HubOp.register o ∈ ops1 ++ ops2
      ∧ o ∈ membersOf (hubRun newHub ops1) t1 := by
  have hinv := hubInv_reachable (ops1 ++ ops2)
  have e1 := (hubInv_mem_roundID hinv h1).symm
  have e2 := (hubInv_mem_roundID hinv h2).symm
  have hinv1 := hubInv_reachable ops1
  have hmem1 : o ∈ membersOf (hubRun newHub ops1) t1 := by
    by_contra habs1
    have habs : ∀ t, o ∉ membersOf (hubRun newHub ops1) t := by
      intro t hmem
      have et : o.roundID = t := hubInv_mem_roundID hinv1 hmem
      apply habs1
      rw [e1.trans et]
      exact hmem
    have h := silence_run o ops2 (hubRun newHub ops1) hinv1 habs hnor
    rw [hubRun_append] at h1
    exact h.1 t1 h1
  have hreg : HubOp.register o ∈ ops1 ++ ops2 := by
    by_contra hno
    have hnor0 : ∀ op ∈ ops1 ++ ops2, op ≠ HubOp.register o := by
      intro op hop he
      exact hno (he ▸ hop)
    have habs0 : ∀ t, o ∉ membersOf newHub t := by
      intro t
      simp [membersOf, newHub, lookupTopic]
    have h := silence_run o (ops1 ++ ops2) newHub hubInv_newHub habs0 hnor0
    exact h.1 t1 h1
  exact ⟨e1, e1.trans e2.symm, hreg, hmem1⟩

/-- Witness for C9: register `clientA`, then a suffix that only publishes;
`clientA` is a member of `"round-1"` (its `RoundID`), the run contains its
registration, and it was already a member before the suffix. -/
theorem C9_observer_in_at_most_one_topic_witness :
    (clientA ∈ membersOf (hubRun newHub
          ([HubOp.register clientA] ++ [.broadcast ⟨"round-1", [1]⟩]))
          "round-1"
      ∧ clientA ∈ membersOf (hubRun newHub
          ([HubOp.register clientA] ++ [.broadcast ⟨"round-1", [1]⟩]))
          "round-1"
      ∧ (∀ op ∈ [HubOp.broadcast ⟨"round-1", [1]⟩],
          op ≠ HubOp.register clientA))
      ∧ ("round-1" = clientA.roundID ∧ ("round-1" : String) = "round-1"
        ∧ HubOp.register clientA
            ∈ [HubOp.register clientA] ++ [.broadcast ⟨"round-1", [1]⟩]
        ∧ clientA ∈ membersOf (hubRun newHub [HubOp.register clientA])
            "round-1") :=
  ⟨⟨by decide, by decide, by decide⟩,
    C9_observer_in_at_most_one_topic [HubOp.register clientA]
      [.broadcast ⟨"round-1", [1]⟩] clientA "round-1" "round-1"
      (by decide) (by decide) (by decide)⟩
